import Mathlib

/-!
Verification of the kodudo config-expansion engine.

This file gives a shallow embedding of the pure core of the repository
`kodudo` (src/kodudo): the config data model (`config/types.py`), the
output-spec override logic and config expansion (`config/expander.py`),
the foreach-field validation of the config loader (`config/loader.py`),
and the data-shape normalization of the data loader (`data/loader.py`).
Filesystem paths are modelled as plain strings (no normalization is
relevant to any property proved here), Python values reachable from
parsed JSON/YAML are modelled by the inductive `JVal`, and Python dicts
by insertion-ordered association lists with unique keys.
-/

namespace Kodudo

/-- A Python value as reachable from parsed JSON/YAML: strings, integers,
booleans, `None`, lists, and string-keyed dicts (as ordered assoc lists). -/
inductive JVal where
  | str (s : String)
  | num (n : Int)
  | bool (b : Bool)
  | null
  | arr (xs : List JVal)
  | obj (kvs : List (String × JVal))

/-- A Python dict with string keys, as an insertion-ordered association
list.  Real dicts never hold duplicate keys; theorems that depend on key
uniqueness take it as a hypothesis. -/
abbrev Dict := List (String × JVal)

/-- Python `d[k]` / `k in d`: first-match lookup in the assoc list. -/
def dictGet : Dict → String → Option JVal
  | [], _ => none
  | (k, v) :: rest, key => if k = key then some v else dictGet rest key

/-- Python `d[k] = v`: replace the value at an existing key in place,
otherwise append the new binding at the end. -/
def dictInsert (d : Dict) (k : String) (v : JVal) : Dict :=
  if (dictGet d k).isSome then
    d.map (fun p => if p.1 = k then (k, v) else p)
  else
    d ++ [(k, v)]

/-- Python `d.update(new)`: insert each binding of `new` into `d`, left
to right. -/
def dictUpdate (d new : Dict) : Dict :=
  new.foldl (fun acc p => dictInsert acc p.1 p.2) d

/-- A single quote character, for Python `repr` of strings. -/
def squote (s : String) : String :=
  String.singleton (Char.ofNat 39) ++ s ++ String.singleton (Char.ofNat 39)

mutual

/-- Python `repr` of a `JVal` (as used inside containers by `str`). -/
def pyRepr : JVal → String
  | .str s => squote s
  | .num n => toString n
  | .bool b => if b then "True" else "False"
  | .null => "None"
  | .arr xs => "[" ++ String.intercalate ", " (pyReprList xs) ++ "]"
  | .obj kvs => "\x7b" ++ String.intercalate ", " (pyReprObj kvs) ++ "\x7d"

/-- `repr` of each element of a list. -/
def pyReprList : List JVal → List String
  | [] => []
  | v :: vs => pyRepr v :: pyReprList vs

/-- `repr` of each `key: value` entry of a dict. -/
def pyReprObj : List (String × JVal) → List String
  | [] => []
  | (k, v) :: kvs => (squote k ++ ": " ++ pyRepr v) :: pyReprObj kvs

end

/-- Python `str(v)`: the string itself for strings, `repr` otherwise
(matching how `interpolate_path` stringifies a resolved leaf). -/
def pyStr : JVal → String
  | .str s => s
  | v => pyRepr v

/-- `Config` from `config/types.py`: the immutable rendering
configuration.  Paths are modelled as strings. -/
structure Config where
  input : String
  template : String
  output : String
  format : Option String
  template_dirs : List String
  context_file : Option String
  context : Option Dict
  base_path : Option String
  foreach : Option String

/-- `OutputSpec` from `config/expander.py`: one entry of the `outputs`
list; all fields but `output` are optional overrides. -/
structure OutputSpec where
  output : String
  input : Option String
  template : Option String
  format : Option String
  template_dirs : Option (List String)
  context_file : Option String
  context : Option Dict

/-- `LoadedData` from `data/loader.py`: the normalized record sequence,
metadata mapping, and metadata-presence flag.  The code does not check
that individual records are mappings (`raw=tuple(data)`), so records are
arbitrary `JVal`s here. -/
structure LoadedData where
  raw : List JVal
  meta : Dict
  has_meta : Bool

/-- The distinct `ConfigError` raises of the embedded code paths. -/
inductive ConfigError where
  | keyNotFound (expr part : String)
  | nonMappingIntermediate (expr part : String)
  | foreachRequiresData
  | foreachNotString
  | reservedForeachName (nm : String)
  | invalidFormat
deriving DecidableEq

/-- The distinct `DataError` raises of the pure part of `load_data`. -/
inductive DataError where
  | notObjectOrArray
  | metaNotMapping
  | dataNotArray
  | unrecognizedFormat
deriving DecidableEq

/-- Left-to-right fail-fast traversal: the `Except` analogue of a Python
loop that appends one result per element and lets exceptions escape. -/
def mapE (f : α → Except ε β) : List α → Except ε (List β)
  | [] => .ok []
  | x :: xs =>
    match f x with
    | .error e => .error e
    | .ok y =>
      match mapE f xs with
      | .error e => .error e
      | .ok ys => .ok (y :: ys)

/-- `_resolve`'s walk from `interpolate_path` (config/expander.py): for
each dot-separated segment, require the current value to be a mapping,
require the segment key to be present, and descend; stringify the value
left when all segments are consumed. -/
def resolveGo (expr : String) : List String → JVal → Except ConfigError String
  | [], current => .ok (pyStr current)
  | part :: rest, current =>
    match current with
    | .obj d =>
      match dictGet d part with
      | some v => resolveGo expr rest v
      | none => .error (.keyNotFound expr part)
    | _ => .error (.nonMappingIntermediate expr part)

/-- Python `expr.split(".")` over characters: split at every dot,
keeping empty segments (so the result is always non-empty). -/
def splitDots (cs : List Char) : List (List Char) :=
  match cs with
  | [] => [[]]
  | c :: rest =>
    if c = '.' then [] :: splitDots rest
    else
      match splitDots rest with
      | seg :: segs => (c :: seg) :: segs
      | [] => [[c]]

/-- The dot-separated segments of a placeholder expression. -/
def exprParts (expr : String) : List String :=
  (splitDots expr.data).map String.mk

/-- Resolve one placeholder expression against the vars dict:
split on dots and walk, starting from the vars mapping itself. -/
def resolveExpr (vars : Dict) (expr : String) : Except ConfigError String :=
  resolveGo expr (exprParts expr) (JVal.obj vars)

/-- One lexical token of a path template: a literal character, or a
placeholder with its inner expression. -/
inductive Tok where
  | lit (c : Char)
  | ph (expr : String)

/-- Scan a path template into tokens, mirroring how `re.sub` with
pattern `\x7b([^\x7d]+)\x7d` finds matches left to right: an opening
brace followed by a non-empty run of close-brace-free characters and a
closing brace is a placeholder (scanning resumes after it); any brace
not completed this way is a literal character.  The accumulator holds
the reversed body of a candidate placeholder whose opening brace has
been seen; since its body never contains a closing brace, an unclosed
candidate at the end of input is literal text that the regex can find no
further match inside. -/
def scanAux : List Char → Option (List Char) → List Tok
  | [], none => []
  | [], some body => Tok.lit '{' :: body.reverse.map Tok.lit
  | c :: cs, none =>
    if c = '{' then scanAux cs (some [])
    else Tok.lit c :: scanAux cs none
  | c :: cs, some body =>
    if c = '}' then
      match body with
      | [] => Tok.lit '{' :: Tok.lit '}' :: scanAux cs none
      | _ :: _ => Tok.ph (String.mk body.reverse) :: scanAux cs none
    else scanAux cs (some (c :: body))

/-- Tokenize a whole character list. -/
def scanTokens (cs : List Char) : List Tok :=
  scanAux cs none

/-- Render one token: a literal character stands for itself, a
placeholder for its resolved value. -/
def renderTok (vars : Dict) : Tok → Except ConfigError String
  | .lit c => .ok (String.singleton c)
  | .ph expr => resolveExpr vars expr

/-- Concatenate rendered pieces. -/
def concatAll : List String → String
  | [] => ""
  | s :: rest => s ++ concatAll rest

/-- `interpolate_path` from `config/expander.py`: substitute every
`\x7bvar.field\x7d` placeholder in the path string by its resolved
value; the first failing placeholder's error escapes. -/
def interpolate_path (path_str : String) (vars : Dict) : Except ConfigError String :=
  match mapE (renderTok vars) (scanTokens path_str.data) with
  | .error e => .error e
  | .ok parts => .ok (concatAll parts)

/-- The placeholder expressions of a path string, in scan order. -/
def placeholders (path_str : String) : List String :=
  (scanTokens path_str.data).filterMap fun t =>
    match t with
    | .ph expr => some expr
    | .lit _ => none

/-- `_apply_output_spec` from `config/expander.py`: derive a new config
from the base by overriding `output` and each explicitly present spec
field; `context` is shallow-merged, spec entries winning. -/
def apply_output_spec (config : Config) (spec : OutputSpec) : Config :=
  { config with
    output := spec.output
    input := match spec.input with | some v => v | none => config.input
    template := match spec.template with | some v => v | none => config.template
    format := match spec.format with | some v => some v | none => config.format
    template_dirs :=
      match spec.template_dirs with | some v => v | none => config.template_dirs
    context_file :=
      match spec.context_file with | some v => some v | none => config.context_file
    context :=
      match spec.context with
      | some sc => some (dictUpdate (config.context.getD []) sc)
      | none => config.context }

/-- The per-(base, record) body of the foreach loop in `expand_config`:
re-interpolate the output path against the singleton vars mapping
`\x7bforeach-name: record\x7d` and inject that same binding into the
context. -/
def foreach_specialize (f : String) (base : Config) (record : JVal) :
    Except ConfigError Config :=
  match interpolate_path base.output [(f, record)] with
  | .error e => .error e
  | .ok new_output =>
    .ok { base with
          output := new_output
          context := some (dictInsert (base.context.getD []) f record) }

/-- `expand_config` from `config/expander.py`: fan a base config out
along the output axis (one derived config per spec) and the foreach axis
(one per record), in output-major, record-minor order. -/
def expand_config (config : Config) (outputs : Option (List OutputSpec))
    (data : Option (List JVal)) : Except ConfigError (List Config) :=
  let has_outputs : Bool := match outputs with | some os => !os.isEmpty | none => false
  let has_foreach : Bool := config.foreach.isSome
  if !has_outputs && !has_foreach then .ok [config]
  else
    let base_configs : List Config :=
      if has_outputs then (outputs.getD []).map (apply_output_spec config)
      else [config]
    if !has_foreach then .ok base_configs
    else
      match data with
      | none => .error ConfigError.foreachRequiresData
      | some ds =>
        if ds.isEmpty then .ok []
        else
          match mapE (fun base => mapE (foreach_specialize (config.foreach.getD "") base) ds)
              base_configs with
          | .error e => .error e
          | .ok rows => .ok rows.flatten

/-- The reserved foreach variable names from `config/loader.py`. -/
def reservedForeachNames : List String := ["data", "meta", "config"]

/-- The foreach-validation fragment of `_parse_config`
(config/loader.py, the `raw.get` result as input): absent or null passes
through as unset, a non-string is rejected, a reserved name is rejected,
any other string (the empty string included) is accepted. -/
def parse_foreach (v : Option JVal) : Except ConfigError (Option String) :=
  match v with
  | none => .ok none
  | some .null => .ok none
  | some (.str s) =>
    if reservedForeachNames.contains s then .error (.reservedForeachName s)
    else .ok (some s)
  | some _ => .error .foreachNotString

/-- The top-level format validation of `_parse_config`
(config/loader.py, the `raw.get("format")` result as input): absent or
null passes through as unset; any other value that is not one of the
three string literals `html`, `markdown`, `text` is rejected with the
invalid-format configuration error (whose message carries the value). -/
def parse_format (v : Option JVal) : Except ConfigError (Option JVal) :=
  match v with
  | none => .ok none
  | some JVal.null => .ok none
  | some (JVal.str s) =>
    if s = "html" ∨ s = "markdown" ∨ s = "text" then .ok (some (JVal.str s))
    else .error ConfigError.invalidFormat
  | some _ => .error ConfigError.invalidFormat

/-- The `format` handling of one outputs entry in `_parse_outputs`
(config/loader.py): `entry.get("format")` is stored in the OutputSpec
verbatim — unlike the top-level field, an entry's format is never
validated against the three literals. -/
def parse_entry_format (entry : Dict) : Option JVal :=
  dictGet entry "format"

/-- One step of the alternate-key loop of `load_data` (data/loader.py):
if the key is present and its value is a sequence, that sequence becomes
the records with no metadata; otherwise fall through to the next
candidate. -/
def altTry (kvs : Dict) (key : String) (next : Except DataError LoadedData) :
    Except DataError LoadedData :=
  match dictGet kvs key with
  | some (JVal.arr ds) => .ok ⟨ds, [], false⟩
  | _ => next

/-- The pure normalization core of `load_data` (data/loader.py), taking
the parsed JSON content: a bare array is the record list; an object with
both `meta` and `data` keys is the metadata shape (with type checks); an
object with one of the alternate keys bound to an array, tried in
priority order, gives plain records; everything else is rejected. -/
def load_data (content : JVal) : Except DataError LoadedData :=
  match content with
  | .arr xs => .ok ⟨xs, [], false⟩
  | .obj kvs =>
    match dictGet kvs "meta", dictGet kvs "data" with
    | some mv, some dv =>
      match mv with
      | .obj mm =>
        match dv with
        | .arr ds => .ok ⟨ds, mm, true⟩
        | _ => .error .dataNotArray
      | _ => .error .metaNotMapping
    | _, _ =>
      altTry kvs "data" (altTry kvs "records" (altTry kvs "items"
        (altTry kvs "results" (.error .unrecognizedFormat))))
  | _ => .error .notObjectOrArray

/-- Split a character list at every path separator. -/
def splitSlash (cs : List Char) : List (List Char) :=
  match cs with
  | [] => [[]]
  | c :: rest =>
    if c = '/' then [] :: splitSlash rest
    else
      match splitSlash rest with
      | seg :: segs => (c :: seg) :: segs
      | [] => [[c]]

/-- `pathlib` final path component: the last segment after splitting on
separators, with empty and `.` segments dropped. -/
def pathName (p : String) : String :=
  ((((splitSlash p.data).map String.mk).filter fun seg => seg ≠ "" && seg ≠ ".").getLast?).getD ""

/-- `str.endswith`. -/
def strEndsWith (s suffix : String) : Bool :=
  suffix.data.isSuffixOf s.data

/-- `pathlib` stem: the name with its last suffix removed — the part
before the last dot, provided that dot is neither leading nor trailing
in the name. -/
def pathStem (p : String) : String :=
  let nm := pathName p
  let cs := nm.data
  match cs.reverse.findIdx? (fun c => c = '.') with
  | none => nm
  | some j =>
    let i := cs.length - 1 - j
    if 0 < i ∧ i < cs.length - 1 then String.mk (cs.take i) else nm

/-- `Config.get_format` from `config/types.py`: the explicit format when
truthy (set and non-empty), otherwise inferred from the template stem:
`html` for a `.html` stem suffix, `markdown` for `.md`, `text`
otherwise. -/
def Config.get_format (c : Config) : String :=
  if c.format.getD "" ≠ "" then c.format.getD ""
  else
    let stem := pathStem c.template
    if strEndsWith stem ".html" then "html"
    else if strEndsWith stem ".md" then "markdown"
    else "text"

/-! ### Helper lemmas about scanning and interpolation -/
/-- The source text a token stands for. -/
def tokText : Tok → List Char
  | .lit c => [c]
  | .ph e => '\x7b' :: (e.data ++ ['\x7d'])

/-- The source text of a token list. -/
def tokListText (ts : List Tok) : List Char :=
  (ts.map tokText).flatten

/-- The literal string a token renders to when it is a literal. -/
def litStr : Tok → String
  | .lit c => String.singleton c
  | .ph _ => ""

/-- The placeholder expression of a token, if any. -/
def phOf : Tok → Option String
  | .ph expr => some expr
  | .lit _ => none

/-- Outcome of the walk described by the specification: the leaf value,
or the segment at which a key was missing, or the segment at which a
non-mapping value was reached. -/
inductive WalkOut where
  | val (v : JVal)
  | missing (part : String)
  | notMapping (part : String)

/-- Specification-side description of placeholder resolution (from the
spec text, for comparison with the embedded `resolveGo`): walk the
segments, descending through mappings. -/
def walkParts : JVal → List String → WalkOut
  | v, [] => .val v
  | v, p :: ps =>
    match v with
    | .obj d =>
      match dictGet d p with
      | some w => walkParts w ps
      | none => .missing p
    | _ => .notMapping p

/-! ### Concrete fixtures for witnesses and counterexamples -/
/-- A base config mirroring the repository test fixture. -/
def cfgBase : Config :=
  Config.mk "data.json" "template.html.j2" "output.html" none [] none none (some "/project") none

/-- The base config with `foreach` set to the empty string. -/
def cfgForeachEmptyName : Config :=
  Config.mk "data.json" "template.html.j2" "output.html" none [] none none (some "/project") (some "")

/-- The base config with `foreach = article` and a placeholder output. -/
def cfgForeachArticle : Config :=
  Config.mk "data.json" "template.html.j2" "\x7barticle.slug\x7d.html" none [] none none
    (some "/project") (some "article")

/-- An output spec with a placeholder path and a `lang` context entry. -/
def specEn : OutputSpec :=
  OutputSpec.mk "en/\x7barticle.slug\x7d.html" none none none none none
    (some [("lang", JVal.str "en")])

/-- A second output spec. -/
def specPt : OutputSpec :=
  OutputSpec.mk "pt/\x7barticle.slug\x7d.html" none none none none none
    (some [("lang", JVal.str "pt")])

/-- A sample record. -/
def recHello : JVal := JVal.obj [("slug", JVal.str "hello"), ("title", JVal.str "Hello")]

/-- A second sample record. -/
def recBye : JVal := JVal.obj [("slug", JVal.str "bye"), ("title", JVal.str "Bye")]

/-- A config with inline context entries `a` and `b`. -/
def cfgCtxAB : Config :=
  Config.mk "i" "t" "o" none [] none (some [("a", JVal.num 1), ("b", JVal.num 2)]) none none

/-- An output spec overriding context key `b`. -/
def specCtxB9 : OutputSpec :=
  OutputSpec.mk "out.html" none none none none none (some [("b", JVal.num 9)])

/-- The result of specializing the base config to `recHello` under the
foreach name `item`. -/
def cfgItemSpecialized : Config :=
  Config.mk "data.json" "template.html.j2" "output.html" none [] none
    (some [("item", recHello)]) (some "/project") none

/-- The key binds no sequence: either absent or bound to a non-sequence
value. -/
def noArrAt (kvs : Dict) (key : String) : Prop :=
  ∀ ds : List JVal, dictGet kvs key ≠ some (JVal.arr ds)

/-! ### Helper lemmas about dict operations -/
theorem dictGet_append (d1 d2 : Dict) (k : String) :
    dictGet (d1 ++ d2) k =
      match dictGet d1 k with
      | some v => some v
      | none => dictGet d2 k := by
  induction d1 with
  | nil => simp [dictGet]
  | cons p rest ih =>
    obtain ⟨kp, vp⟩ := p
    by_cases h : kp = k
    · simp [dictGet, h]
    · simp [dictGet, h, ih]

theorem dictGet_cons (a : String) (b : JVal) (rest : Dict) (key : String) :
    dictGet ((a, b) :: rest) key = if a = key then some b else dictGet rest key := rfl

theorem dictGet_map_other (d : Dict) (k v k') (hne : k ≠ k') :
    dictGet (d.map (fun p => if p.1 = k then (k, v) else p)) k' = dictGet d k' := by
  induction d with
  | nil => rfl
  | cons p rest ih =>
    obtain ⟨kp, vp⟩ := p
    simp only [List.map_cons]
    by_cases h : kp = k
    · have hkp : kp ≠ k' := by rw [h]; exact hne
      rw [if_pos h, dictGet_cons, dictGet_cons, if_neg hne, if_neg hkp, ih]
    · rw [if_neg h, dictGet_cons, dictGet_cons]
      by_cases h' : kp = k'
      · rw [if_pos h', if_pos h']
      · rw [if_neg h', if_neg h', ih]

theorem dictGet_map_self (d : Dict) (k v) (hk : (dictGet d k).isSome) :
    dictGet (d.map (fun p => if p.1 = k then (k, v) else p)) k = some v := by
  induction d with
  | nil => simp [dictGet] at hk
  | cons p rest ih =>
    obtain ⟨kp, vp⟩ := p
    simp only [List.map_cons]
    by_cases h : kp = k
    · rw [if_pos h, dictGet_cons, if_pos rfl]
    · rw [dictGet_cons, if_neg h] at hk
      rw [if_neg h, dictGet_cons, if_neg h, ih hk]

theorem dictGet_insert (d : Dict) (k : String) (v : JVal) (k' : String) :
    dictGet (dictInsert d k v) k' = if k = k' then some v else dictGet d k' := by
  unfold dictInsert
  by_cases hmem : (dictGet d k).isSome
  · simp only [hmem, if_true]
    by_cases hk : k = k'
    · subst hk
      simp [dictGet_map_self d k v hmem]
    · simp [hk, dictGet_map_other d k v k' hk]
  · simp only [hmem, Bool.false_eq_true, if_false]
    rw [dictGet_append]
    have hnone : dictGet d k = none := by
      cases h : dictGet d k with
      | none => rfl
      | some v' => rw [h] at hmem; simp at hmem
    by_cases hk : k = k'
    · subst hk
      simp [hnone, dictGet]
    · cases h' : dictGet d k' with
      | none => simp [hk, dictGet, Ne.symm hk]
      | some v' => simp [hk]

theorem dictGet_eq_none_of_not_mem (d : Dict) (k : String) (h : k ∉ d.map Prod.fst) :
    dictGet d k = none := by
  induction d with
  | nil => rfl
  | cons p rest ih =>
    obtain ⟨kp, vp⟩ := p
    simp only [List.map_cons, List.mem_cons, not_or] at h
    obtain ⟨h1, h2⟩ := h
    simp only [dictGet]
    rw [if_neg (fun he => h1 he.symm), ih h2]

theorem dictGet_update (d new : Dict) (hnd : (new.map Prod.fst).Nodup) (k : String) :
    dictGet (dictUpdate d new) k =
      match dictGet new k with
      | some v => some v
      | none => dictGet d k := by
  induction new generalizing d with
  | nil => simp [dictUpdate, dictGet]
  | cons p rest ih =>
    obtain ⟨k0, v0⟩ := p
    simp only [List.map_cons, List.nodup_cons] at hnd
    obtain ⟨hk0, hrest⟩ := hnd
    have step : dictUpdate d ((k0, v0) :: rest) = dictUpdate (dictInsert d k0 v0) rest := by
      simp [dictUpdate, List.foldl_cons]
    rw [step, ih (dictInsert d k0 v0) hrest]
    by_cases hk : k0 = k
    · subst hk
      have hrn : dictGet rest k0 = none := dictGet_eq_none_of_not_mem rest k0 hk0
      simp [hrn, dictGet, dictGet_insert]
    · simp only [dictGet, if_neg hk]
      rw [dictGet_insert]
      simp [hk]

/-! ### Helper lemmas about fail-fast traversal and flattening -/
theorem mapE_ok_length {f : α → Except ε β} {xs : List α} {ys : List β}
    (h : mapE f xs = .ok ys) : ys.length = xs.length := by
  induction xs generalizing ys with
  | nil => simp [mapE] at h; subst h; rfl
  | cons x xs ih =>
    simp only [mapE] at h
    cases hx : f x with
    | error e => rw [hx] at h; simp at h
    | ok y =>
      rw [hx] at h
      cases hr : mapE f xs with
      | error e => rw [hr] at h; simp at h
      | ok ys' =>
        rw [hr] at h
        simp at h
        subst h
        simp [ih hr]

theorem mapE_ok_get {f : α → Except ε β} {xs : List α} {ys : List β}
    (h : mapE f xs = .ok ys) :
    ∀ i (hi : i < xs.length) (hi' : i < ys.length), f (xs.get ⟨i, hi⟩) = .ok (ys.get ⟨i, hi'⟩) := by
  induction xs generalizing ys with
  | nil => intro i hi; simp at hi
  | cons x xs ih =>
    simp only [mapE] at h
    cases hx : f x with
    | error e => rw [hx] at h; simp at h
    | ok y =>
      rw [hx] at h
      cases hr : mapE f xs with
      | error e => rw [hr] at h; simp at h
      | ok ys' =>
        rw [hr] at h
        simp at h
        subst h
        intro i hi hi'
        match i with
        | 0 => simpa using hx
        | Nat.succ n =>
          simp only [List.get_cons_succ]
          exact ih hr n (by simpa using hi) (by simpa using hi')

theorem mapE_ok_mem {f : α → Except ε β} {xs : List α} {ys : List β}
    (h : mapE f xs = .ok ys) : ∀ y ∈ ys, ∃ x ∈ xs, f x = .ok y := by
  induction xs generalizing ys with
  | nil => simp [mapE] at h; subst h; simp
  | cons x xs ih =>
    simp only [mapE] at h
    cases hx : f x with
    | error e => rw [hx] at h; simp at h
    | ok y =>
      rw [hx] at h
      cases hr : mapE f xs with
      | error e => rw [hr] at h; simp at h
      | ok ys' =>
        rw [hr] at h
        simp at h
        subst h
        intro z hz
        rcases List.mem_cons.mp hz with hz | hz
        · exact ⟨x, List.mem_cons_self x xs, by rw [hx, hz]⟩
        · obtain ⟨x', hx', hfx'⟩ := ih hr z hz
          exact ⟨x', List.mem_cons_of_mem x hx', hfx'⟩

theorem mapE_error_split {f : α → Except ε β} {xs : List α} {e : ε}
    (h : mapE f xs = .error e) :
    ∃ pre x post, xs = pre ++ x :: post ∧ (∀ y ∈ pre, ∃ t, f y = .ok t) ∧ f x = .error e := by
  induction xs with
  | nil => simp [mapE] at h
  | cons x xs ih =>
    simp only [mapE] at h
    cases hx : f x with
    | error e' =>
      rw [hx] at h
      simp at h
      subst h
      exact ⟨[], x, xs, rfl, by simp, hx⟩
    | ok y =>
      rw [hx] at h
      cases hr : mapE f xs with
      | error e' =>
        rw [hr] at h
        simp at h
        subst h
        obtain ⟨pre, z, post, hxs, hpre, hz⟩ := ih hr
        refine ⟨x :: pre, z, post, by simp [hxs], ?_, hz⟩
        intro w hw
        rcases List.mem_cons.mp hw with hw | hw
        · exact ⟨y, by rw [hw, hx]⟩
        · exact hpre w hw
      | ok ys' => rw [hr] at h; simp at h

theorem mapE_ok_of_all {f : α → Except ε β} {g : α → β} {xs : List α}
    (h : ∀ x ∈ xs, f x = .ok (g x)) : mapE f xs = .ok (xs.map g) := by
  induction xs with
  | nil => rfl
  | cons x xs ih =>
    simp only [mapE]
    rw [h x (List.mem_cons_self x xs)]
    rw [ih fun y hy => h y (List.mem_cons_of_mem x hy)]
    simp

theorem mapE_ok_exists {f : α → Except ε β} {xs : List α}
    (h : ∀ x ∈ xs, ∃ y, f x = .ok y) : ∃ ys, mapE f xs = .ok ys := by
  induction xs with
  | nil => exact ⟨[], rfl⟩
  | cons x xs ih =>
    obtain ⟨y, hy⟩ := h x (List.mem_cons_self x xs)
    obtain ⟨ys, hys⟩ := ih fun z hz => h z (List.mem_cons_of_mem x hz)
    exact ⟨y :: ys, by simp only [mapE]; rw [hy, hys]⟩

theorem mapE_ok_all {f : α → Except ε β} {xs : List α} {ys : List β}
    (h : mapE f xs = .ok ys) : ∀ x ∈ xs, ∃ y, f x = .ok y := by
  induction xs generalizing ys with
  | nil => simp
  | cons x xs ih =>
    simp only [mapE] at h
    cases hx : f x with
    | error e => rw [hx] at h; simp at h
    | ok y =>
      rw [hx] at h
      cases hr : mapE f xs with
      | error e => rw [hr] at h; simp at h
      | ok ys' =>
        intro z hz
        rcases List.mem_cons.mp hz with hz | hz
        · exact ⟨y, by rw [hz, hx]⟩
        · exact ih hr z hz

theorem flatten_uniform_length {rows : List (List γ)} {n : Nat}
    (h : ∀ r ∈ rows, r.length = n) : rows.flatten.length = rows.length * n := by
  induction rows with
  | nil => simp
  | cons r rows ih =>
    simp only [List.flatten_cons, List.length_append, List.length_cons]
    rw [h r (List.mem_cons_self r rows), ih fun s hs => h s (List.mem_cons_of_mem r hs)]
    ring

theorem flatten_uniform_getD {rows : List (List γ)} {n : Nat} (dflt : γ)
    (h : ∀ r ∈ rows, r.length = n) :
    ∀ i j, i < rows.length → j < n →
      rows.flatten.getD (i * n + j) dflt = (rows.getD i []).getD j dflt := by
  induction rows with
  | nil => intro i j hi; simp at hi
  | cons r rows ih =>
    intro i j hi hj
    have hr : r.length = n := h r (List.mem_cons_self r rows)
    match i with
    | 0 =>
      simp only [List.flatten_cons, Nat.zero_mul, Nat.zero_add, List.getD_cons_zero]
      have hjr : j < r.length := by rw [hr]; exact hj
      rw [List.getD_eq_getElem?_getD, List.getD_eq_getElem?_getD,
        List.getElem?_append, if_pos hjr]
    | Nat.succ m =>
      simp only [List.flatten_cons, List.getD_cons_succ]
      have harith : (m + 1) * n + j = r.length + (m * n + j) := by
        rw [hr]; ring
      rw [harith, List.getD_eq_getElem?_getD, List.getElem?_append_right (by omega),
        show r.length + (m * n + j) - r.length = m * n + j by omega,
        ← List.getD_eq_getElem?_getD]
      exact ih (fun s hs => h s (List.mem_cons_of_mem r hs)) m j (by simpa using hi) hj

theorem tokListText_cons (t : Tok) (ts : List Tok) :
    tokListText (t :: ts) = tokText t ++ tokListText ts := by
  simp [tokListText]

theorem string_ext {x y : String} (h : x.data = y.data) : x = y :=
  congrArg String.mk h

theorem data_append (x y : String) : (x ++ y).data = x.data ++ y.data := rfl

theorem tokListText_lits : ∀ l : List Char, tokListText (l.map Tok.lit) = l := by
  intro l
  induction l with
  | nil => rfl
  | cons c cl ih => simp only [List.map_cons, tokListText_cons, tokText, ih]; rfl

theorem scanAux_text (cs : List Char) : ∀ pending,
    tokListText (scanAux cs pending) =
      (match pending with
       | none => cs
       | some body => '\x7b' :: (body.reverse ++ cs)) := by
  induction cs with
  | nil =>
    intro pending
    match pending with
    | none => rfl
    | some body =>
      show tokListText (Tok.lit '\x7b' :: body.reverse.map Tok.lit) = '\x7b' :: (body.reverse ++ [])
      rw [tokListText_cons, tokListText_lits]
      simp [tokText]
  | cons c cs ih =>
    intro pending
    match pending with
    | none =>
      by_cases hc : c = '\x7b'
      · subst hc
        show tokListText (scanAux cs (some [])) = '\x7b' :: cs
        rw [ih (some [])]
        simp
      · show tokListText (scanAux (c :: cs) none) = c :: cs
        simp only [scanAux, if_neg hc, tokListText_cons]
        rw [ih none]
        simp [tokText]
    | some body =>
      by_cases hc : c = '\x7d'
      · subst hc
        match body with
        | [] =>
          show tokListText (Tok.lit '\x7b' :: Tok.lit '\x7d' :: scanAux cs none) =
            '\x7b' :: (List.reverse [] ++ '\x7d' :: cs)
          rw [tokListText_cons, tokListText_cons]
          rw [ih none]
          simp [tokText]
        | b :: bs =>
          show tokListText (Tok.ph (String.mk (b :: bs).reverse) :: scanAux cs none) =
            '\x7b' :: ((b :: bs).reverse ++ '\x7d' :: cs)
          rw [tokListText_cons]
          rw [ih none]
          simp [tokText]
      · show tokListText (scanAux (c :: cs) (some body)) =
          '\x7b' :: (body.reverse ++ c :: cs)
        simp only [scanAux, if_neg hc]
        rw [ih (some (c :: body))]
        simp

theorem scanTokens_text (cs : List Char) : tokListText (scanTokens cs) = cs :=
  scanAux_text cs none

theorem lit_mapE (vars : Dict) (ts : List Tok) (h : ∀ t ∈ ts, ∃ c, t = Tok.lit c) :
    mapE (renderTok vars) ts = .ok (ts.map litStr) := by
  apply mapE_ok_of_all
  intro t ht
  obtain ⟨c, hc⟩ := h t ht
  subst hc
  rfl

theorem concatAll_data (ss : List String) :
    (concatAll ss).data = (ss.map String.data).flatten := by
  induction ss with
  | nil => rfl
  | cons a ss ih => simp [concatAll, data_append, ih]

theorem placeholders_eq (s : String) :
    placeholders s = (scanTokens s.data).filterMap phOf := rfl

theorem interp_no_ph (s : String) (vars : Dict) (h : placeholders s = []) :
    interpolate_path s vars = .ok s := by
  rw [placeholders_eq] at h
  rw [List.filterMap_eq_nil_iff] at h
  have hlit : ∀ t ∈ scanTokens s.data, ∃ c, t = Tok.lit c := by
    intro t ht
    match t with
    | .lit c => exact ⟨c, rfl⟩
    | .ph e => exact absurd (h _ ht) (by simp [phOf])
  unfold interpolate_path
  rw [lit_mapE vars _ hlit]
  show Except.ok (concatAll (List.map litStr (scanTokens s.data))) = Except.ok s
  congr 1
  apply string_ext
  rw [concatAll_data, List.map_map]
  have hmaps : (scanTokens s.data).map (String.data ∘ litStr) = (scanTokens s.data).map tokText := by
    apply List.map_congr_left
    intro t ht
    obtain ⟨c, hc⟩ := hlit t ht
    subst hc
    rfl
  rw [hmaps]
  exact scanTokens_text s.data

theorem interp_error (s : String) (vars : Dict) (e : ConfigError)
    (h : interpolate_path s vars = .error e) :
    ∃ pre expr post, placeholders s = pre ++ expr :: post ∧
      (∀ x ∈ pre, ∃ t, resolveExpr vars x = .ok t) ∧ resolveExpr vars expr = .error e := by
  unfold interpolate_path at h
  cases hm : mapE (renderTok vars) (scanTokens s.data) with
  | ok parts => rw [hm] at h; simp at h
  | error e' =>
    rw [hm] at h
    simp at h
    subst h
    obtain ⟨preT, t, postT, hts, hpre, ht⟩ := mapE_error_split hm
    match t with
    | .lit c => simp [renderTok] at ht
    | .ph expr =>
      refine ⟨preT.filterMap phOf, expr, postT.filterMap phOf, ?_, ?_, ht⟩
      · rw [placeholders_eq, hts, List.filterMap_append]
        simp [phOf]
      · intro x hx
        obtain ⟨u, hu, hux⟩ := List.mem_filterMap.mp hx
        match u with
        | .lit c => simp [phOf] at hux
        | .ph e2 =>
          simp [phOf] at hux
          subst hux
          exact hpre _ hu

theorem interp_ok_iff (s : String) (vars : Dict) :
    (∃ out, interpolate_path s vars = .ok out) ↔
      (∀ expr ∈ placeholders s, ∃ t, resolveExpr vars expr = .ok t) := by
  constructor
  · rintro ⟨out, h⟩
    unfold interpolate_path at h
    cases hm : mapE (renderTok vars) (scanTokens s.data) with
    | error e => rw [hm] at h; simp at h
    | ok parts =>
      intro expr hexpr
      rw [placeholders_eq] at hexpr
      obtain ⟨u, hu, hux⟩ := List.mem_filterMap.mp hexpr
      match u with
      | .lit c => simp [phOf] at hux
      | .ph e2 =>
        simp [phOf] at hux
        subst hux
        obtain ⟨y, hy⟩ := mapE_ok_all hm _ hu
        exact ⟨y, hy⟩
  · intro hall
    have : ∀ t ∈ scanTokens s.data, ∃ y, renderTok vars t = .ok y := by
      intro t ht
      match t with
      | .lit c => exact ⟨String.singleton c, rfl⟩
      | .ph expr =>
        apply hall
        rw [placeholders_eq]
        exact List.mem_filterMap.mpr ⟨Tok.ph expr, ht, rfl⟩
    obtain ⟨ys, hys⟩ := mapE_ok_exists this
    exact ⟨concatAll ys, by unfold interpolate_path; rw [hys]⟩

theorem resolveGo_walk (expr : String) (parts : List String) (cur : JVal) :
    resolveGo expr parts cur =
      match walkParts cur parts with
      | .val v => .ok (pyStr v)
      | .missing p => .error (.keyNotFound expr p)
      | .notMapping p => .error (.nonMappingIntermediate expr p) := by
  induction parts generalizing cur with
  | nil => rfl
  | cons p ps ih =>
    match cur with
    | .str v => rfl
    | .num v => rfl
    | .bool v => rfl
    | .null => rfl
    | .arr v => rfl
    | .obj d =>
      simp only [resolveGo, walkParts]
      cases dictGet d p with
      | some w => exact ih w
      | none => rfl

theorem resolveExpr_walk (vars : Dict) (expr : String) :
    resolveExpr vars expr =
      match walkParts (JVal.obj vars) (exprParts expr) with
      | .val v => .ok (pyStr v)
      | .missing p => .error (.keyNotFound expr p)
      | .notMapping p => .error (.nonMappingIntermediate expr p) :=
  resolveGo_walk expr (exprParts expr) (JVal.obj vars)

theorem resolveExpr_error_shape (vars : Dict) (expr : String) (e : ConfigError)
    (h : resolveExpr vars expr = .error e) :
    (∃ p, e = .keyNotFound expr p) ∨ (∃ p, e = .nonMappingIntermediate expr p) := by
  rw [resolveExpr_walk] at h
  cases hw : walkParts (JVal.obj vars) (exprParts expr) with
  | val v => rw [hw] at h; simp at h
  | missing p => rw [hw] at h; simp at h; exact Or.inl ⟨p, h.symm⟩
  | notMapping p => rw [hw] at h; simp at h; exact Or.inr ⟨p, h.symm⟩

/-! ### Helper lemmas about expansion -/
theorem expand_none_none (c : Config) (hf : c.foreach = none) (d : Option (List JVal)) :
    expand_config c none d = .ok [c] := by
  simp [expand_config, hf]

theorem expand_empty_eq_none (c : Config) (d : Option (List JVal)) :
    expand_config c (some []) d = expand_config c none d := by
  simp [expand_config]

theorem expand_outputs_only (c : Config) (os : List OutputSpec) (hos : os ≠ [])
    (hf : c.foreach = none) (d : Option (List JVal)) :
    expand_config c (some os) d = .ok (os.map (apply_output_spec c)) := by
  have hne : os.isEmpty = false := by simp [List.isEmpty_iff, hos]
  simp [expand_config, hf, hne]

theorem expand_foreach_no_data (c : Config) (f : String) (hf : c.foreach = some f)
    (outs : Option (List OutputSpec)) :
    expand_config c outs none = .error ConfigError.foreachRequiresData := by
  simp [expand_config, hf]

theorem expand_foreach_empty_data (c : Config) (f : String) (hf : c.foreach = some f)
    (outs : Option (List OutputSpec)) :
    expand_config c outs (some []) = .ok [] := by
  simp [expand_config, hf]

theorem expand_both (c : Config) (f : String) (os : List OutputSpec) (ds : List JVal)
    (hf : c.foreach = some f) (hos : os ≠ []) (hds : ds ≠ []) :
    expand_config c (some os) (some ds) =
      match mapE (fun base => mapE (foreach_specialize f base) ds)
          (os.map (apply_output_spec c)) with
      | .error e => .error e
      | .ok rows => .ok rows.flatten := by
  have h1 : os.isEmpty = false := by simp [List.isEmpty_iff, hos]
  have h2 : ds.isEmpty = false := by simp [List.isEmpty_iff, hds]
  simp [expand_config, hf, h1, h2]

theorem expand_foreach_data_general (c : Config) (f : String) (hf : c.foreach = some f)
    (outs : Option (List OutputSpec)) (ds : List JVal) (hds : ds ≠ []) :
    ∃ bases, expand_config c outs (some ds) =
      match mapE (fun base => mapE (foreach_specialize f base) ds) bases with
      | .error e => .error e
      | .ok rows => .ok rows.flatten := by
  have h2 : ds.isEmpty = false := by simp [List.isEmpty_iff, hds]
  match outs with
  | none => exact ⟨[c], by simp [expand_config, hf, h2]⟩
  | some [] => exact ⟨[c], by simp [expand_config, hf, h2]⟩
  | some (o :: os) => exact ⟨(o :: os).map (apply_output_spec c), by simp [expand_config, hf, h2]⟩

theorem foreach_specialize_ok (f : String) (base : Config) (record : JVal) (cfg : Config)
    (h : foreach_specialize f base record = .ok cfg) :
    ∃ out, interpolate_path base.output [(f, record)] = .ok out ∧
      cfg = { base with
              output := out
              context := some (dictInsert (base.context.getD []) f record) } := by
  unfold foreach_specialize at h
  cases hi : interpolate_path base.output [(f, record)] with
  | error e => rw [hi] at h; simp at h
  | ok out =>
    rw [hi] at h
    simp at h
    exact ⟨out, rfl, h.symm⟩

theorem foreach_specialize_error_shape (f : String) (base : Config) (record : JVal)
    (e : ConfigError) (h : foreach_specialize f base record = .error e) :
    (∃ ex p, e = .keyNotFound ex p) ∨ (∃ ex p, e = .nonMappingIntermediate ex p) := by
  unfold foreach_specialize at h
  cases hi : interpolate_path base.output [(f, record)] with
  | ok out => rw [hi] at h; simp at h
  | error e2 =>
    rw [hi] at h
    simp at h
    subst h
    obtain ⟨pre, expr, post, hph, hpre, hres⟩ := interp_error _ _ _ hi
    rcases resolveExpr_error_shape _ _ _ hres with ⟨p, hp⟩ | ⟨p, hp⟩
    · exact Or.inl ⟨expr, p, hp⟩
    · exact Or.inr ⟨expr, p, hp⟩

/-! ### Claim theorems -/
/-- C3: for every config with no foreach, `expand_config` with output
specs absent or empty returns exactly the one-element list holding the
base config unchanged; and an empty output-spec sequence behaves
identically to an absent one in all cases (any foreach, any data). -/
theorem C3_identity_expansion (c : Config) (d : Option (List JVal)) :
    (c.foreach = none →
      expand_config c none d = .ok [c] ∧ expand_config c (some []) d = .ok [c])
    ∧ expand_config c (some []) d = expand_config c none d := by
  constructor
  · intro hf
    refine ⟨expand_none_none c hf d, ?_⟩
    rw [expand_empty_eq_none]
    exact expand_none_none c hf d
  · exact expand_empty_eq_none c d

/-- C3 witness: instantiated at the concrete base config. -/
theorem C3_identity_expansion_witness :
    expand_config cfgBase none none = .ok [cfgBase]
    ∧ expand_config cfgBase (some []) none = .ok [cfgBase] :=
  (C3_identity_expansion cfgBase none).1 rfl

/-- C4: with foreach set, `expand_config` fails with the
foreach-requires-data configuration error exactly when the record
sequence is absent; a supplied empty record sequence yields the empty
expansion without error, whatever the output specs; and a supplied
record sequence never produces the foreach-requires-data error. -/
theorem C4_foreach_data_requirement (c : Config) (f : String)
    (outs : Option (List OutputSpec)) (hf : c.foreach = some f) :
    expand_config c outs none = .error ConfigError.foreachRequiresData
    ∧ expand_config c outs (some []) = .ok []
    ∧ ∀ ds : List JVal, expand_config c outs (some ds) ≠ .error ConfigError.foreachRequiresData := by
  refine ⟨expand_foreach_no_data c f hf outs, expand_foreach_empty_data c f hf outs, ?_⟩
  intro ds hcontra
  match ds with
  | [] => rw [expand_foreach_empty_data c f hf outs] at hcontra; simp at hcontra
  | d0 :: ds' =>
    obtain ⟨bases, heq⟩ := expand_foreach_data_general c f hf outs (d0 :: ds') (by simp)
    rw [heq] at hcontra
    cases hm : mapE (fun base => mapE (foreach_specialize f base) (d0 :: ds')) bases with
    | ok rows => rw [hm] at hcontra; simp at hcontra
    | error e =>
      rw [hm] at hcontra
      simp at hcontra
      subst hcontra
      obtain ⟨pre, b, post, hxs, hpre, hb⟩ := mapE_error_split hm
      obtain ⟨pre2, r, post2, hxs2, hpre2, hr⟩ := mapE_error_split hb
      rcases foreach_specialize_error_shape f b r _ hr with ⟨ex, p, hp⟩ | ⟨ex, p, hp⟩ <;>
        simp at hp

/-- C4 witness: instantiated at the concrete foreach config. -/
theorem C4_foreach_data_requirement_witness :
    expand_config cfgForeachArticle none none = .error ConfigError.foreachRequiresData
    ∧ expand_config cfgForeachArticle none (some []) = .ok [] :=
  ⟨(C4_foreach_data_requirement cfgForeachArticle "article" none rfl).1,
   (C4_foreach_data_requirement cfgForeachArticle "article" none rfl).2.1⟩

/-- C6: applying an output spec overrides `output` and exactly the
explicitly present spec fields; every absent field inherits from the
base config, and `base_path` and `foreach` are always preserved. -/
theorem C6_output_spec_frame (c : Config) (s : OutputSpec) :
    (apply_output_spec c s).output = s.output
    ∧ (s.input = none → (apply_output_spec c s).input = c.input)
    ∧ (s.template = none → (apply_output_spec c s).template = c.template)
    ∧ (s.format = none → (apply_output_spec c s).format = c.format)
    ∧ (s.template_dirs = none → (apply_output_spec c s).template_dirs = c.template_dirs)
    ∧ (s.context_file = none → (apply_output_spec c s).context_file = c.context_file)
    ∧ (s.context = none → (apply_output_spec c s).context = c.context)
    ∧ (apply_output_spec c s).base_path = c.base_path
    ∧ (apply_output_spec c s).foreach = c.foreach
    ∧ (∀ v, s.input = some v → (apply_output_spec c s).input = v)
    ∧ (∀ v, s.template = some v → (apply_output_spec c s).template = v)
    ∧ (∀ v, s.format = some v → (apply_output_spec c s).format = some v)
    ∧ (∀ v, s.template_dirs = some v → (apply_output_spec c s).template_dirs = v)
    ∧ (∀ v, s.context_file = some v → (apply_output_spec c s).context_file = some v) := by
  refine ⟨rfl, ?_, ?_, ?_, ?_, ?_, ?_, rfl, rfl, ?_, ?_, ?_, ?_, ?_⟩ <;>
    first
      | (intro h; simp [apply_output_spec, h])
      | (intro v h; simp [apply_output_spec, h])

/-- C6 witness: a spec overriding only the template inherits all other
fields from the base. -/
theorem C6_output_spec_frame_witness :
    (apply_output_spec cfgBase (OutputSpec.mk "out.html" none (some "other.html.j2") none none none none)).input = cfgBase.input
    ∧ (apply_output_spec cfgBase (OutputSpec.mk "out.html" none (some "other.html.j2") none none none none)).template = "other.html.j2" := by
  refine ⟨(C6_output_spec_frame cfgBase _).2.1 rfl, ?_⟩
  exact (C6_output_spec_frame cfgBase _).2.2.2.2.2.2.2.2.2.2.1 "other.html.j2" rfl

/-- C2 counterexample: the code keys the foreach axis on the field being
set, not on it being a non-empty string.  With `foreach` set to the
empty string and an empty record sequence supplied, `expand_config`
returns the empty expansion, while the same config with `foreach` unset
returns the one-element identity expansion — so an empty-string foreach
is not treated as unset; and the loader fragment accepts an empty-string
foreach rather than rejecting it. -/
theorem C2_counterexample :
    cfgForeachEmptyName.foreach = some ""
    ∧ expand_config cfgForeachEmptyName none (some []) = .ok []
    ∧ expand_config cfgBase none (some []) = .ok [cfgBase]
    ∧ cfgBase = { cfgForeachEmptyName with foreach := none }
    ∧ (Except.ok ([] : List Config) ≠ (.ok [cfgBase] : Except ConfigError (List Config)))
    ∧ parse_foreach (some (JVal.str "")) = .ok (some "") := by
  refine ⟨rfl, rfl, rfl, rfl, ?_, rfl⟩
  simp

/-- C2 amended: the foreach axis is active iff the config's foreach
field is set, to any string whatsoever (the empty string included):
`expand_config` with no data errs with the foreach-requires-data error
exactly when foreach is set, and with an empty record sequence returns
the empty expansion whenever foreach is set; and the loader accepts any
non-reserved string as a foreach name, the empty string included. -/
theorem C2_foreach_active_iff_set (c : Config) (outs : Option (List OutputSpec)) :
    (expand_config c outs none = .error ConfigError.foreachRequiresData ↔ c.foreach ≠ none)
    ∧ (c.foreach ≠ none → expand_config c outs (some []) = .ok [])
    ∧ (∀ nm : String, nm ∉ reservedForeachNames →
        parse_foreach (some (JVal.str nm)) = .ok (some nm))
    ∧ parse_foreach (some (JVal.str "")) = .ok (some "") := by
  refine ⟨⟨?_, ?_⟩, ?_, ?_, rfl⟩
  · intro h hf
    match outs with
    | none => rw [expand_none_none c hf none] at h; simp at h
    | some [] =>
      rw [expand_empty_eq_none, expand_none_none c hf none] at h
      simp at h
    | some (o :: os) =>
      rw [expand_outputs_only c (o :: os) (by simp) hf none] at h
      simp at h
  · intro h
    match hf : c.foreach with
    | none => exact absurd hf h
    | some f => exact expand_foreach_no_data c f hf outs
  · intro h
    match hf : c.foreach with
    | none => exact absurd hf h
    | some f => exact expand_foreach_empty_data c f hf outs
  · intro nm hnm
    simp [parse_foreach]
    exact hnm

/-- C2 amended witness: the empty-string foreach keeps the axis active
at the concrete config. -/
theorem C2_foreach_active_iff_set_witness :
    expand_config cfgForeachEmptyName none none = .error ConfigError.foreachRequiresData
    ∧ expand_config cfgForeachEmptyName none (some []) = .ok []
    ∧ parse_foreach (some (JVal.str "loop")) = .ok (some "loop") :=
  ⟨(C2_foreach_active_iff_set cfgForeachEmptyName none).1.mpr (by simp [cfgForeachEmptyName]),
   (C2_foreach_active_iff_set cfgForeachEmptyName none).2.1 (by simp [cfgForeachEmptyName]),
   (C2_foreach_active_iff_set cfgForeachEmptyName none).2.2.1 "loop" (by simp [reservedForeachNames])⟩

/-- `get_format` case behavior: the explicit format when set and
non-empty (whatever string it is), stem-based inference when unset; the
three-literal range holds only on configs whose format field respects
the documented invariant (see `C10_format_escape` for how the loader
fails to maintain it on outputs entries). -/
theorem get_format_cases (c : Config)
    (hfmt : c.format = none ∨ c.format = some "html" ∨ c.format = some "markdown"
      ∨ c.format = some "text") :
    (c.get_format = "html" ∨ c.get_format = "markdown" ∨ c.get_format = "text")
    ∧ (∀ fv, c.format = some fv → fv ≠ "" → c.get_format = fv)
    ∧ (c.format = none →
        c.get_format =
          (if strEndsWith (pathStem c.template) ".html" then "html"
           else if strEndsWith (pathStem c.template) ".md" then "markdown"
           else "text")) := by
  have hcase : ∀ fv, c.format = some fv → fv ≠ "" → c.get_format = fv := by
    intro fv hfv hne
    simp [Config.get_format, hfv, hne]
  have hnone : c.format = none →
      c.get_format =
        (if strEndsWith (pathStem c.template) ".html" then "html"
         else if strEndsWith (pathStem c.template) ".md" then "markdown"
         else "text") := by
    intro hfv
    simp [Config.get_format, hfv]
  refine ⟨?_, hcase, hnone⟩
  rcases hfmt with h | h | h | h
  · rw [hnone h]
    by_cases h1 : strEndsWith (pathStem c.template) ".html"
    · simp [h1]
    · by_cases h2 : strEndsWith (pathStem c.template) ".md"
      · simp [h1, h2]
      · simp [h1, h2]
  · exact Or.inl (hcase _ h (by simp))
  · exact Or.inr (Or.inl (hcase _ h (by simp)))
  · exact Or.inr (Or.inr (hcase _ h (by simp)))

/-- C5: context merging is right-biased and shallow.  When an output
spec carries a context mapping (with the dict invariant of unique keys),
the derived config's context maps every key to the spec's value when the
spec binds it and to the base's value otherwise; and when a foreach
specialization succeeds, the derived context maps the foreach name to
the record — winning over any same-named existing key — and every other
key to its value in the pre-specialization config. -/
theorem C5_context_merge (c : Config) (spec : OutputSpec) (sc : Dict)
    (hsc : spec.context = some sc) (hnd : (sc.map Prod.fst).Nodup)
    (f : String) (base : Config) (record : JVal) (cfg : Config)
    (hfs : foreach_specialize f base record = .ok cfg) :
    (∀ k, dictGet ((apply_output_spec c spec).context.getD []) k =
        (match dictGet sc k with
         | some v => some v
         | none => dictGet (c.context.getD []) k))
    ∧ (∀ k, dictGet (cfg.context.getD []) k =
        if f = k then some record else dictGet (base.context.getD []) k) := by
  constructor
  · intro k
    have hctx : (apply_output_spec c spec).context =
        some (dictUpdate (c.context.getD []) sc) := by
      simp [apply_output_spec, hsc]
    rw [hctx]
    simpa using dictGet_update (c.context.getD []) sc hnd k
  · intro k
    obtain ⟨out, hout, hcfg⟩ := foreach_specialize_ok f base record cfg hfs
    subst hcfg
    simpa using dictGet_insert (base.context.getD []) f record k

/-- C5 witness: the right-biased merge and the foreach injection at
concrete configs. -/
theorem C5_context_merge_witness :
    dictGet ((apply_output_spec cfgCtxAB specCtxB9).context.getD []) "b" = some (JVal.num 9)
    ∧ dictGet ((apply_output_spec cfgCtxAB specCtxB9).context.getD []) "a" = some (JVal.num 1)
    ∧ dictGet (cfgItemSpecialized.context.getD []) "item" = some recHello := by
  have h := C5_context_merge cfgCtxAB specCtxB9 [("b", JVal.num 9)] rfl (by simp)
      "item" cfgBase recHello cfgItemSpecialized (by rfl)
  refine ⟨?_, ?_, ?_⟩
  · rw [h.1 "b"]; rfl
  · rw [h.1 "a"]; rfl
  · rw [h.2 "item"]; rfl

/-- C7: a mapping containing both a `meta` and a `data` key is decided
by the metadata shape alone: well-typed values yield the records with
metadata and the flag set; a non-mapping `meta` or a non-sequence `data`
is a data error, never a fallback to the alternate-key shape.  A
sequence input always takes the bare-array shape. -/
theorem C7_meta_data_shape (kvs : Dict) (mv dv : JVal)
    (hm : dictGet kvs "meta" = some mv) (hd : dictGet kvs "data" = some dv) :
    (∀ mm dsv, mv = JVal.obj mm → dv = JVal.arr dsv →
      load_data (JVal.obj kvs) = .ok (LoadedData.mk dsv mm true))
    ∧ ((∀ mm, mv ≠ JVal.obj mm) → load_data (JVal.obj kvs) = .error DataError.metaNotMapping)
    ∧ (∀ mm, mv = JVal.obj mm → (∀ dsv, dv ≠ JVal.arr dsv) →
      load_data (JVal.obj kvs) = .error DataError.dataNotArray)
    ∧ (∀ xs : List JVal, load_data (JVal.arr xs) = .ok (LoadedData.mk xs [] false)) := by
  refine ⟨?_, ?_, ?_, fun xs => rfl⟩
  · intro mm dsv hmm hdsv
    subst hmm; subst hdsv
    simp [load_data, hm, hd]
  · intro hno
    match mv with
    | JVal.obj mm => exact absurd rfl (hno mm)
    | JVal.str v => simp [load_data, hm, hd]
    | JVal.num v => simp [load_data, hm, hd]
    | JVal.bool v => simp [load_data, hm, hd]
    | JVal.null => simp [load_data, hm, hd]
    | JVal.arr v => simp [load_data, hm, hd]
  · intro mm hmm hno
    subst hmm
    match dv with
    | JVal.arr dsv => exact absurd rfl (hno dsv)
    | JVal.str v => simp [load_data, hm, hd]
    | JVal.num v => simp [load_data, hm, hd]
    | JVal.bool v => simp [load_data, hm, hd]
    | JVal.null => simp [load_data, hm, hd]
    | JVal.obj v => simp [load_data, hm, hd]

/-- C7 witness: the metadata shape, a wrong-typed `data`, and a bare
sequence at concrete inputs. -/
theorem C7_meta_data_shape_witness :
    load_data (JVal.obj [("meta", JVal.obj [("v", JVal.num 1)]), ("data", JVal.arr [recHello])]) =
      .ok (LoadedData.mk [recHello] [("v", JVal.num 1)] true)
    ∧ load_data (JVal.obj [("meta", JVal.obj []), ("data", JVal.num 3), ("records", JVal.arr [])]) =
      .error DataError.dataNotArray
    ∧ load_data (JVal.arr [recHello]) = .ok (LoadedData.mk [recHello] [] false) := by
  refine ⟨?_, ?_, ?_⟩
  · exact (C7_meta_data_shape [("meta", JVal.obj [("v", JVal.num 1)]), ("data", JVal.arr [recHello])]
      (JVal.obj [("v", JVal.num 1)]) (JVal.arr [recHello]) rfl rfl).1
      [("v", JVal.num 1)] [recHello] rfl rfl
  · exact (C7_meta_data_shape [("meta", JVal.obj []), ("data", JVal.num 3), ("records", JVal.arr [])]
      (JVal.obj []) (JVal.num 3) rfl rfl).2.2.1 [] rfl (fun dsv h => by simp at h)
  · exact (C7_meta_data_shape [("meta", JVal.obj [("v", JVal.num 1)]), ("data", JVal.arr [recHello])]
      (JVal.obj [("v", JVal.num 1)]) (JVal.arr [recHello]) rfl rfl).2.2.2 [recHello]

theorem altTry_arr (kvs : Dict) (key : String) (ds : List JVal)
    (next : Except DataError LoadedData) (h : dictGet kvs key = some (JVal.arr ds)) :
    altTry kvs key next = .ok (LoadedData.mk ds [] false) := by
  simp [altTry, h]

theorem altTry_skip (kvs : Dict) (key : String) (next : Except DataError LoadedData)
    (h : noArrAt kvs key) : altTry kvs key next = next := by
  unfold altTry
  match hv : dictGet kvs key with
  | none => rfl
  | some (JVal.str v) => rfl
  | some (JVal.num v) => rfl
  | some (JVal.bool v) => rfl
  | some JVal.null => rfl
  | some (JVal.obj v) => rfl
  | some (JVal.arr ds) => exact absurd hv (h ds)

theorem load_data_alt (kvs : Dict)
    (hpair : dictGet kvs "meta" = none ∨ dictGet kvs "data" = none) :
    load_data (JVal.obj kvs) =
      altTry kvs "data" (altTry kvs "records" (altTry kvs "items"
        (altTry kvs "results" (.error .unrecognizedFormat)))) := by
  match hm : dictGet kvs "meta", hd : dictGet kvs "data" with
  | some mv, some dv =>
    rcases hpair with h | h
    · rw [hm] at h; simp at h
    · rw [hd] at h; simp at h
  | none, some dv => simp [load_data, hm, hd]
  | none, none => simp [load_data, hm, hd]
  | some mv, none => simp [load_data, hm, hd]

/-- C8: for a mapping without the meta/data pair, the alternate keys
`data`, `records`, `items`, `results` are tried in that priority order:
the first one bound to a sequence supplies the records with empty
metadata and no metadata flag; if a key is absent or bound to a
non-sequence value the next is tried; and when none of them binds a
sequence the result is the unrecognized-data-format data error (so in
particular a single present alternate key with a wrong-typed value is a
data error). -/
theorem C8_alternate_keys (kvs : Dict)
    (hpair : dictGet kvs "meta" = none ∨ dictGet kvs "data" = none) :
    (∀ ds, dictGet kvs "data" = some (JVal.arr ds) →
      load_data (JVal.obj kvs) = .ok (LoadedData.mk ds [] false))
    ∧ (noArrAt kvs "data" → ∀ ds, dictGet kvs "records" = some (JVal.arr ds) →
      load_data (JVal.obj kvs) = .ok (LoadedData.mk ds [] false))
    ∧ (noArrAt kvs "data" → noArrAt kvs "records" →
      ∀ ds, dictGet kvs "items" = some (JVal.arr ds) →
      load_data (JVal.obj kvs) = .ok (LoadedData.mk ds [] false))
    ∧ (noArrAt kvs "data" → noArrAt kvs "records" → noArrAt kvs "items" →
      ∀ ds, dictGet kvs "results" = some (JVal.arr ds) →
      load_data (JVal.obj kvs) = .ok (LoadedData.mk ds [] false))
    ∧ (noArrAt kvs "data" → noArrAt kvs "records" → noArrAt kvs "items" →
      noArrAt kvs "results" →
      load_data (JVal.obj kvs) = .error DataError.unrecognizedFormat) := by
  refine ⟨?_, ?_, ?_, ?_, ?_⟩
  · intro ds h
    rw [load_data_alt kvs hpair, altTry_arr kvs "data" ds _ h]
  · intro h1 ds h
    rw [load_data_alt kvs hpair, altTry_skip kvs "data" _ h1,
      altTry_arr kvs "records" ds _ h]
  · intro h1 h2 ds h
    rw [load_data_alt kvs hpair, altTry_skip kvs "data" _ h1,
      altTry_skip kvs "records" _ h2, altTry_arr kvs "items" ds _ h]
  · intro h1 h2 h3 ds h
    rw [load_data_alt kvs hpair, altTry_skip kvs "data" _ h1,
      altTry_skip kvs "records" _ h2, altTry_skip kvs "items" _ h3,
      altTry_arr kvs "results" ds _ h]
  · intro h1 h2 h3 h4
    rw [load_data_alt kvs hpair, altTry_skip kvs "data" _ h1,
      altTry_skip kvs "records" _ h2, altTry_skip kvs "items" _ h3,
      altTry_skip kvs "results" _ h4]

/-- C8 witness: the `records` key with a sequence, a lone wrong-typed
alternate key, and a no-shape mapping at concrete inputs. -/
theorem C8_alternate_keys_witness :
    load_data (JVal.obj [("records", JVal.arr [recHello])]) =
      .ok (LoadedData.mk [recHello] [] false)
    ∧ load_data (JVal.obj [("records", JVal.num 5)]) =
      .error DataError.unrecognizedFormat
    ∧ load_data (JVal.obj [("foo", JVal.num 1)]) =
      .error DataError.unrecognizedFormat := by
  refine ⟨?_, ?_, ?_⟩
  · exact (C8_alternate_keys [("records", JVal.arr [recHello])] (Or.inl rfl)).2.1
      (fun ds h => by simp [dictGet] at h) [recHello] rfl
  · exact (C8_alternate_keys [("records", JVal.num 5)] (Or.inl rfl)).2.2.2.2
      (fun ds h => by simp [dictGet] at h) (fun ds h => by simp [dictGet] at h)
      (fun ds h => by simp [dictGet] at h) (fun ds h => by simp [dictGet] at h)
  · exact (C8_alternate_keys [("foo", JVal.num 1)] (Or.inl rfl)).2.2.2.2
      (fun ds h => by simp [dictGet] at h) (fun ds h => by simp [dictGet] at h)
      (fun ds h => by simp [dictGet] at h) (fun ds h => by simp [dictGet] at h)

/-- C9: interpolation substitutes resolved placeholder values and fails
exactly as described.  A string with no placeholders is returned
unchanged; interpolation succeeds iff every placeholder expression
resolves; a raised error is exactly the resolution error of the first
failing placeholder (all placeholders before it resolve); and the per
expression resolution errs with key-not-found exactly when the walk
reaches a mapping missing the segment key, errs with
non-mapping-intermediate exactly when the walk reaches a non-mapping
value at a segment, and otherwise yields the stringified leaf. -/
theorem C9_interpolation (s : String) (vars : Dict) :
    (placeholders s = [] → interpolate_path s vars = .ok s)
    ∧ ((∃ out, interpolate_path s vars = .ok out) ↔
        ∀ expr ∈ placeholders s, ∃ t, resolveExpr vars expr = .ok t)
    ∧ (∀ e, interpolate_path s vars = .error e →
        ∃ pre expr post, placeholders s = pre ++ expr :: post
          ∧ (∀ x ∈ pre, ∃ t, resolveExpr vars x = .ok t)
          ∧ resolveExpr vars expr = .error e)
    ∧ (∀ expr part, resolveExpr vars expr = .error (ConfigError.keyNotFound expr part)
        ↔ walkParts (JVal.obj vars) (exprParts expr) = WalkOut.missing part)
    ∧ (∀ expr part,
        resolveExpr vars expr = .error (ConfigError.nonMappingIntermediate expr part)
        ↔ walkParts (JVal.obj vars) (exprParts expr) = WalkOut.notMapping part)
    ∧ (∀ expr v, walkParts (JVal.obj vars) (exprParts expr) = WalkOut.val v →
        resolveExpr vars expr = .ok (pyStr v)) := by
  refine ⟨interp_no_ph s vars, interp_ok_iff s vars, interp_error s vars, ?_, ?_, ?_⟩
  · intro expr part
    rw [resolveExpr_walk]
    cases hw : walkParts (JVal.obj vars) (exprParts expr) with
    | val v => simp
    | missing p => simp
    | notMapping p => simp
  · intro expr part
    rw [resolveExpr_walk]
    cases hw : walkParts (JVal.obj vars) (exprParts expr) with
    | val v => simp
    | missing p => simp
    | notMapping p => simp
  · intro expr v hw
    rw [resolveExpr_walk, hw]

/-- C9 witness: the spec's three examples, via the theorem. -/
theorem C9_interpolation_witness :
    interpolate_path "plain.html" [] = .ok "plain.html"
    ∧ resolveExpr [("a", JVal.obj [("b", JVal.str "x")])] "a.b" = .ok "x"
    ∧ resolveExpr [("a", JVal.num 1)] "z" = .error (ConfigError.keyNotFound "z" "z")
    ∧ resolveExpr [("a", JVal.str "x")] "a.b" =
        .error (ConfigError.nonMappingIntermediate "a.b" "b") := by
  refine ⟨(C9_interpolation "plain.html" []).1 rfl, ?_, ?_, ?_⟩
  · exact (C9_interpolation "" [("a", JVal.obj [("b", JVal.str "x")])]).2.2.2.2.2
      "a.b" (JVal.str "x") rfl
  · exact ((C9_interpolation "" [("a", JVal.num 1)]).2.2.2.1 "z" "z").mpr rfl
  · exact ((C9_interpolation "" [("a", JVal.str "x")]).2.2.2.2.1 "a.b" "b").mpr rfl

/-- C1: when both axes are active and expansion succeeds, the result has
exactly one config per (output spec, record) pair in output-axis-major,
record-minor order: the config at position `i * n + j` is the output
spec `i` applied to the base and then specialized to record `j` (output
path re-interpolated and foreach binding injected). -/
theorem C1_cartesian_product (c : Config) (f : String) (os : List OutputSpec)
    (ds : List JVal) (l : List Config) (hf : c.foreach = some f)
    (hos : os ≠ []) (hds : ds ≠ [])
    (h : expand_config c (some os) (some ds) = .ok l) :
    l.length = os.length * ds.length
    ∧ ∀ i j (hi : i < os.length) (hj : j < ds.length),
      foreach_specialize f (apply_output_spec c (os.get ⟨i, hi⟩)) (ds.get ⟨j, hj⟩) =
        .ok (l.getD (i * ds.length + j) c) := by
  rw [expand_both c f os ds hf hos hds] at h
  cases hm : mapE (fun base => mapE (foreach_specialize f base) ds)
      (os.map (apply_output_spec c)) with
  | error e => rw [hm] at h; simp at h
  | ok rows =>
    rw [hm] at h
    simp at h
    subst h
    have hrowlen : ∀ r ∈ rows, r.length = ds.length := by
      intro r hr
      obtain ⟨base, hbase, hfb⟩ := mapE_ok_mem hm r hr
      exact mapE_ok_length hfb
    have hlenrows : rows.length = os.length := by
      rw [mapE_ok_length hm, List.length_map]
    constructor
    · rw [flatten_uniform_length hrowlen, hlenrows]
    · intro i j hi hj
      have hi' : i < rows.length := by rw [hlenrows]; exact hi
      have himap : i < (os.map (apply_output_spec c)).length := by
        rw [List.length_map]; exact hi
      have hgetD := flatten_uniform_getD c hrowlen i j hi' hj
      rw [hgetD]
      have hrow := mapE_ok_get hm i himap hi'
      have hjrow : j < (rows.get ⟨i, hi'⟩).length := by
        rw [hrowlen _ (rows.get_mem i hi')]
        exact hj
      have hbase : (os.map (apply_output_spec c)).get ⟨i, himap⟩ =
          apply_output_spec c (os.get ⟨i, hi⟩) := by
        simp
      rw [hbase] at hrow
      have hspec := mapE_ok_get hrow j hj hjrow
      have h1 : rows.getD i [] = rows.get ⟨i, hi'⟩ := by
        rw [List.getD_eq_getElem?_getD, List.getElem?_eq_getElem hi']
        rfl
      have h2 : (rows.get ⟨i, hi'⟩).getD j c = (rows.get ⟨i, hi'⟩).get ⟨j, hjrow⟩ := by
        rw [List.getD_eq_getElem?_getD, List.getElem?_eq_getElem hjrow]
        rfl
      rw [h1, h2]
      exact hspec

/-- C1 witness: two output specs by two records give four configs in
output-major order at concrete inputs. -/
theorem C1_cartesian_product_witness :
    ∃ l, expand_config cfgForeachArticle (some [specEn, specPt]) (some [recHello, recBye]) = .ok l
      ∧ l.length = 4
      ∧ foreach_specialize "article" (apply_output_spec cfgForeachArticle specPt) recHello =
          .ok (l.getD 2 cfgForeachArticle) := by
  refine ⟨_, rfl, ?_, ?_⟩
  · have h := C1_cartesian_product cfgForeachArticle "article" [specEn, specPt]
      [recHello, recBye] _ rfl (by simp) (by simp) rfl
    exact h.1
  · have h := C1_cartesian_product cfgForeachArticle "article" [specEn, specPt]
      [recHello, recBye] _ rfl (by simp) (by simp) rfl
    exact h.2 1 0 (by simp) (by simp)

/-- C10: the claim's always-one-of-three-literals invariant is the
documented intent (the Config docstring, the spec, and the top-level
format validation all state it), but `_parse_outputs` stores an outputs
entry's `format` without validating it, so a non-literal format such as
`pdf` — which the top-level validation rejects — flows through
`apply_output_spec` into the derived config, and `get_format` exposes
it verbatim to templates. -/
theorem C10_format_escape :
    parse_entry_format [("output", JVal.str "o.pdf"), ("format", JVal.str "pdf")] =
      some (JVal.str "pdf")
    ∧ (apply_output_spec cfgBase
        (OutputSpec.mk "o.pdf" none none (some "pdf") none none none)).format = some "pdf"
    ∧ (apply_output_spec cfgBase
        (OutputSpec.mk "o.pdf" none none (some "pdf") none none none)).get_format = "pdf"
    ∧ "pdf" ∉ (["html", "markdown", "text"] : List String)
    ∧ parse_format (some (JVal.str "pdf")) = .error ConfigError.invalidFormat
    ∧ parse_format (some (JVal.str "html")) = .ok (some (JVal.str "html")) := by
  refine ⟨rfl, rfl, rfl, by simp, ?_, ?_⟩
  · simp [parse_format]
  · simp [parse_format]

end Kodudo
